import Mathlib

/-!
# GuestVault: content-addressed blob store with reference-counted deletion

A shallow embedding of the core of the `guestvault` repository
(`src/guestvault/{db,storage,routes}.py` and the legacy single-file
`src/app.py`), together with theorems settling the frozen claims about it.

Modelling conventions:
* POSIX paths are lists of components (`List String`); the kernel's lexical
  resolution of `..` and `.` during traversal is `resolveComponents`.
* File bytes are `List Nat`; the SHA-256 / MD5 digests are opaque functions of
  the byte sequence actually fed to the hash objects (the hasher theorems are
  stated on that byte sequence, which determines both digests).
* The SQLite `files` table is a `List UploadRecord`; `AUTOINCREMENT` ids are
  modelled by a `nextId` counter.  `uploaded_at` is an abstract monotone
  timestamp (`Nat`): SQLite's `datetime(uploaded_at)` is a monotone
  normalisation of the stored ISO-8601 string and is modelled by the value
  itself.
* The filesystem under the storage root is the set of absolute resolved paths
  at which a regular file exists (`disk : List (List String)`, duplicate-free
  by construction).  `rmdir` of fan-out directories is best-effort cleanup of
  empty directories, invisible in this file-level model.
-/

namespace GuestVault

/-- One row of the `files` table (schema in `db.py:init_db` /
`app.py:init_db`).  `stored_relpath` is kept as its `/`-separated component
list. -/
structure UploadRecord where
  id : Nat
  filename_original : String
  stored_relpath : List String
  content_type : String
  size : Nat
  sha256 : String
  md5 : String
  uploaded_at : Nat
  download_count : Nat
deriving Repr, DecidableEq

/-! ## Path resolution -/

/-- Lexical path resolution as performed by the OS when a path is opened or
unlinked: `..` pops the last component (staying put at the filesystem root),
`.` and empty components are skipped. `acc` is the absolute directory the
relative components are resolved against. -/
def resolveComponents (acc : List String) : List String → List String
  | [] => acc
  | c :: rest =>
    if c = ".." then resolveComponents acc.dropLast rest
    else if c = "." ∨ c = "" then resolveComponents acc rest
    else resolveComponents (acc ++ [c]) rest

/-- `p` lies inside the directory `root` (root itself counts as inside). -/
def insideRoot (root p : List String) : Prop := p.take root.length = root

instance (root p : List String) : Decidable (insideRoot root p) := by
  unfold insideRoot; infer_instance

/-- A path component that neither escapes nor collapses during resolution. -/
def goodComp (c : String) : Prop := c ≠ "" ∧ c ≠ "." ∧ c ≠ ".."

instance (c : String) : Decidable (goodComp c) := by
  unfold goodComp; infer_instance

/-! ## Metadata catalog (`db.py`) -/

/-- `db.py:get_file`: `SELECT * FROM files WHERE id = ?` (first match). -/
def get_file (catalog : List UploadRecord) (file_id : Nat) : Option UploadRecord :=
  catalog.find? (fun r => r.id = file_id)

/-- `SELECT COUNT(*) FROM files WHERE sha256 = ?`
(`storage.py:delete_blob_if_unreferenced`). -/
def countBySha (catalog : List UploadRecord) (sha : String) : Nat :=
  (catalog.filter (fun r => r.sha256 = sha)).length

/-- `DELETE FROM files WHERE id = ?` (`routes.py:delete_file`, `bulk_delete`). -/
def deleteRowById (catalog : List UploadRecord) (file_id : Nat) : List UploadRecord :=
  catalog.filter (fun r => r.id ≠ file_id)

/-- `db.py:increment_download_count`:
`UPDATE files SET download_count = download_count + 1 WHERE id = ?`.
The update touches every row matching the `WHERE` clause and no other row,
and is silently a no-op when none matches. -/
def increment_download_count (catalog : List UploadRecord) (file_id : Nat) :
    List UploadRecord :=
  catalog.map (fun r =>
    if r.id = file_id then { r with download_count := r.download_count + 1 } else r)

/-- The ordering of `db.py:list_files`:
`ORDER BY datetime(uploaded_at) DESC, id DESC`. -/
def listOrder (a b : UploadRecord) : Prop :=
  b.uploaded_at < a.uploaded_at ∨ (a.uploaded_at = b.uploaded_at ∧ b.id ≤ a.id)

instance : DecidableRel listOrder := fun a b => by
  unfold listOrder; infer_instance

/-- `db.py:list_files`: the rows sorted by `listOrder` (any SQL engine returns
some permutation of the table sorted by the `ORDER BY` comparator). -/
def list_files (catalog : List UploadRecord) : List UploadRecord :=
  catalog.insertionSort listOrder

/-! ## Hasher (`storage.py:_hash_fileobj` / `app.py:_hash_fileobj`) -/

/-- One run of the read loop of `_hash_fileobj`, parameterised by the chunk
size `c` (the sources fix `c = 1024 * 1024`; the claim quantifies over it).
Returns the byte sequence fed to the hash objects, in order, together with the
accumulated `size`.  `read(c)` on a stream whose unread remainder is `rest`
returns `rest.take c`; the loop stops at the first empty chunk.  `fuel` bounds
the number of iterations for structural recursion; every nonempty chunk
consumes at least one byte, so `rest.length + 1` iterations always suffice
(proved below), making the bound invisible. -/
def hashLoop : Nat → Nat → List Nat → List Nat × Nat
  | 0, _, _ => ([], 0)
  | fuel + 1, c, rest =>
    if rest.take c = [] then ([], 0)
    else
      let r := hashLoop fuel c (rest.drop c)
      (rest.take c ++ r.1, (rest.take c).length + r.2)

/-- The read loop of `_hash_fileobj` with chunk size `c`. -/
def hashChunks (c : Nat) (rest : List Nat) : List Nat × Nat :=
  hashLoop (rest.length + 1) c rest

/-- `_hash_fileobj` on a stream whose full content is `content`, positioned at
its start: consume the stream in chunks of `c` bytes, then `f.seek(0)`.
Result: ((bytes fed to both hash objects, reported size), final stream
position). -/
def hash_fileobj (c : Nat) (content : List Nat) : (List Nat × Nat) × Nat :=
  (((hashChunks c content).1, (hashChunks c content).2), 0)

/-- Chunk size used by both sources (`f.read(1024 * 1024)`). -/
def CHUNK : Nat := 1024 * 1024

/-! ## Blob store (`storage.py`) -/

/-- `storage.py:store_file` path derivation: `sha_prefix = sha256_hex[:2]`,
`stored_filename = sha256_hex + ext`, `rel_path = join(...)`. -/
def locationFor (sha256_hex ext : String) : List String :=
  [sha256_hex.take 2, sha256_hex ++ ext]

/-- Writing the blob file (`file_storage.save(abs_path)` / the `open(...,"wb")`
loop): afterwards a file exists at `p`; content-addressing makes an overwrite
byte-identical, so the file set either gains `p` or is unchanged. -/
def writeBlob (disk : List (List String)) (p : List String) : List (List String) :=
  if p ∈ disk then disk else disk ++ [p]

/-- `Path.unlink(missing_ok=True)`: remove the file at `p` if present. -/
def unlinkPath (disk : List (List String)) (p : List String) : List (List String) :=
  disk.filter (fun q => q ≠ p)

/-! ## Vault state and the delete paths -/

/-- Durable state: the `files` table, the files on disk (absolute resolved
paths), and the next `AUTOINCREMENT` id. -/
structure VaultState where
  catalog : List UploadRecord
  disk : List (List String)
  nextId : Nat
deriving Repr, DecidableEq

/-- `storage.py:delete_blob_if_unreferenced(sha256_hex, rel_path)`: query
`COUNT(*) ... WHERE sha256 = ?` on a fresh connection, and when it is `0`
unlink `UPLOAD_DIR / rel_path` (note: the path is used as stored, with no
check that its resolution stays inside the storage root `root`). -/
def delete_blob_if_unreferenced (root : List String) (sha256_hex : String)
    (rel_path : List String) (s : VaultState) : VaultState :=
  if countBySha s.catalog sha256_hex = 0 then
    { s with disk := unlinkPath s.disk (resolveComponents root rel_path) }
  else s

/-- `routes.py:delete_file` (admin and CSRF checks already passed): look the
row up, `404` (`none`) if absent, delete the row, then
`delete_blob_if_unreferenced(row.sha256, row.stored_relpath)`. -/
def delete_file (root : List String) (file_id : Nat) (s : VaultState) :
    Option VaultState :=
  match get_file s.catalog file_id with
  | none => none
  | some row =>
    let s1 : VaultState := { s with catalog := deleteRowById s.catalog file_id }
    some (delete_blob_if_unreferenced root row.sha256 row.stored_relpath s1)

/-- Repeated single-record deletion, one `POST /files/<id>/delete` request per
id in order; a 404 (unknown id) leaves the state unchanged and the sequence
continues. -/
def seqDelete (root : List String) (ids : List Nat) (s : VaultState) : VaultState :=
  ids.foldl (fun st i => (delete_file root i st).getD st) s

/-- `int(v)` on a form value, `None` when it raises (`routes.py:bulk_delete`
parses decimal record ids; anything else is skipped). -/
def pyInt? (s : String) : Option Nat :=
  if s ≠ "" ∧ s.toList.all (fun ch => ch.isDigit) then
    some (s.toList.foldl (fun n ch => 10 * n + (ch.toNat - 48)) 0)
  else none

/-- First phase of `routes.py:bulk_delete`: one connection; for each id,
`SELECT`; if a row exists remember it and `DELETE` it; commit at the end.
Returns (remaining catalog, remembered rows in encounter order). -/
def phase1 : List Nat → List UploadRecord → List UploadRecord × List UploadRecord
  | [], cat => (cat, [])
  | fid :: ids, cat =>
    match cat.find? (fun r => r.id = fid) with
    | some row =>
      let rest := phase1 ids (cat.filter (fun r => r.id ≠ fid))
      (rest.1, row :: rest.2)
    | none => phase1 ids cat

/-- Second phase of `routes.py:bulk_delete`: after the commit, call
`delete_blob_if_unreferenced` for each remembered row; every count query runs
against the post-batch catalog `cat'`.  The second result component is a ghost
log of the unlink events that actually removed a present file, used to state
"exactly one removal"; the disk evolution is exactly the code's. -/
def blobPass (root : List String) (cat' : List UploadRecord) :
    List UploadRecord → List (List String) → List (List String) × List (List String)
  | [], disk => (disk, [])
  | r :: rows, disk =>
    if countBySha cat' r.sha256 = 0 then
      let p := resolveComponents root r.stored_relpath
      let rest := blobPass root cat' rows (unlinkPath disk p)
      (rest.1, (if p ∈ disk then [p] else []) ++ rest.2)
    else
      blobPass root cat' rows disk

/-- `routes.py:bulk_delete` (admin and CSRF checks already passed): parse ids,
run both phases, flash `Deleted {len(rows)} file(s).` — the second component
is that reported count. -/
def bulk_delete (root : List String) (raw_ids : List String) (s : VaultState) :
    VaultState × Nat :=
  let ids := raw_ids.filterMap pyInt?
  let p1 := phase1 ids s.catalog
  let p2 := blobPass root p1.1 p1.2 s.disk
  ({ s with catalog := p1.1, disk := p2.1 }, p1.2.length)

/-! ## Serving files (`routes.py:download` / `raw`) -/

/-- `Path(rel).parent` on a relative component path. -/
def parentComps (rel : List String) : List String := rel.dropLast

/-- `Path(rel).name`. -/
def nameComp (rel : List String) : String := rel.getLast?.getD ""

/-- `send_from_directory(directory, filename)`: werkzeug's `safe_join` rejects
a *filename* that is itself a traversal step, but trusts `directory`;
on success the OS opens `directory / filename` resolved lexically. -/
def send_from_directory (directory : List String) (fname : String) :
    Option (List String) :=
  if fname = ".." ∨ fname = "." ∨ fname = "" ∨ fname.toList.contains '/' then none
  else some (resolveComponents [] (directory ++ [fname]))

/-- `routes.py:download`: look the row up (`404` when absent), increment the
download counter, then serve
`send_from_directory(UPLOAD_DIR / Path(rel).parent, Path(rel).name)`.
Returns the state after the counter update and the absolute path served
(`none` when the request 404s). -/
def download_route (root : List String) (file_id : Nat) (s : VaultState) :
    VaultState × Option (List String) :=
  match get_file s.catalog file_id with
  | none => (s, none)
  | some row =>
    let s' : VaultState :=
      { s with catalog := increment_download_count s.catalog file_id }
    (s', send_from_directory (root ++ parentComps row.stored_relpath)
          (nameComp row.stored_relpath))

/-! ## Filename sanitisation (werkzeug `secure_filename`) and `os.path.splitext` -/

/-- Characters kept by werkzeug's `_filename_ascii_strip_re`
(`[^A-Za-z0-9_.-]` is removed). -/
def allowedChar (ch : Char) : Bool :=
  ch.isAlpha || ch.isDigit || ch = '_' || ch = '.' || ch = '-'

/-- Python `str.strip("...")`: remove any of the given characters from both
ends. -/
def stripChars (bad : List Char) (l : List Char) : List Char :=
  ((l.dropWhile (fun ch => ch ∈ bad)).reverse.dropWhile (fun ch => ch ∈ bad)).reverse

/-- werkzeug `secure_filename` for ASCII input on POSIX (the NFKD/ASCII
normalisation is the identity there, `os.path.altsep` is `None`, and the
Windows device-name special case does not apply): replace `os.sep` by spaces,
join the whitespace-split pieces with `_` (Python's `str.split()` splits on
whitespace runs and discards empty pieces), drop characters outside
`[A-Za-z0-9_.-]`, and strip leading/trailing `.` and `_`. -/
def secure_filename (filename : String) : String :=
  let replaced := filename.toList.map (fun ch => if ch = '/' then ' ' else ch)
  let pieces := (replaced.splitOnP (fun ch => ch.isWhitespace)).filter (fun t => t ≠ [])
  let joined := List.intercalate ['_'] pieces
  let kept := joined.filter allowedChar
  ⟨stripChars ['.', '_'] kept⟩

/-- `os.path.splitext(s)[1]` for a name without separators: the extension
starts at the last dot, except that leading dots never begin an extension. -/
def splitextExt (s : String) : String :=
  let cs := s.toList
  if (cs.dropWhile (fun ch => ch = '.')).contains '.' then
    ⟨'.' :: (cs.reverse.takeWhile (fun ch => ch ≠ '.')).reverse⟩
  else ""

/-! ## The upload paths -/

/-- The content digests, abstract: deterministic functions of the byte
sequence fed to the hash objects. -/
structure HashFns where
  shaHex : List Nat → String
  md5Hex : List Nat → String

/-- `routes.py:upload` (CSRF already validated), composed with
`storage.py:store_file` and `db.py:insert_file_record`.  `filename = none`
models a request without a `file` part.  Note the *absence* of any check that
`secure_filename(file.filename)` is non-empty: the sanitized name is passed
straight to `store_file`.  `mimetype` is `file_storage.mimetype`, `ts` the
insertion clock.  `Except.error n` is `abort(n)`. -/
def upload_route (H : HashFns) (root : List String) (filename : Option String)
    (content : List Nat) (mimetype : String) (ts : Nat) (s : VaultState) :
    Except Nat VaultState :=
  match filename with
  | none => .error 400
  | some fn =>
    if fn = "" then .error 400
    else
      let sanitized := secure_filename fn
      let hashed := hash_fileobj CHUNK content
      let sha := H.shaHex hashed.1.1
      let ext := splitextExt sanitized
      let rel := locationFor sha ext
      let s1 : VaultState := { s with disk := writeBlob s.disk (resolveComponents root rel) }
      .ok { s1 with
            catalog := s1.catalog ++
              [⟨s1.nextId, sanitized, rel, mimetype, hashed.1.2, sha,
                H.md5Hex hashed.1.1, ts, 0⟩],
            nextId := s1.nextId + 1 }

/-- The input-validation head of the legacy `app.py:upload` (lines 264-275):
the same checks as `routes.py:upload` *plus*
`if not original_name: abort(400, "Invalid filename")`, all before any
hashing, storing or inserting.  Returns the sanitized name on success. -/
def app_upload_check (filename : Option String) : Except Nat String :=
  match filename with
  | none => .error 400
  | some fn =>
    if fn = "" then .error 400
    else
      let original_name := secure_filename fn
      if original_name = "" then .error 400
      else .ok original_name

instance {ε α : Type} [DecidableEq ε] [DecidableEq α] : DecidableEq (Except ε α)
  | .error e1, .error e2 =>
    if h : e1 = e2 then .isTrue (by rw [h])
    else .isFalse (by intro hh; cases hh; exact h rfl)
  | .error _, .ok _ => .isFalse (by intro h; cases h)
  | .ok _, .error _ => .isFalse (by intro h; cases h)
  | .ok a1, .ok a2 =>
    if h : a1 = a2 then .isTrue (by rw [h])
    else .isFalse (by intro hh; cases hh; exact h rfl)

/-! ## Traces of vault operations (for the reachable-state invariant) -/

/-- The data of one successful upload as it reaches the store layer: `sha` and
`md5h` are the digests the hasher computed from the content, `ext` is
`splitext(sanitized filename)[1]`. -/
structure UploadReq where
  sha : String
  ext : String
  fname : String
  ct : String
  md5h : String
  size : Nat
  ts : Nat
deriving Repr, DecidableEq

/-- `store_file` followed by `insert_file_record` for an upload request:
write the blob at its content-derived location, insert the row, allocate the
next id. -/
def store_file_insert (root : List String) (u : UploadReq) (s : VaultState) :
    VaultState :=
  let rel := locationFor u.sha u.ext
  { catalog := s.catalog ++
      [⟨s.nextId, u.fname, rel, u.ct, u.size, u.sha, u.md5h, u.ts, 0⟩],
    disk := writeBlob s.disk (resolveComponents root rel),
    nextId := s.nextId + 1 }

/-- One externally-triggered mutation of the vault. -/
inductive Op where
  | upload (u : UploadReq)
  | deleteOne (file_id : Nat)
  | bulk (raw_ids : List String)
deriving Repr, DecidableEq

/-- Execute one operation.  A single delete of an unknown id 404s and leaves
the state unchanged. -/
def execOp (root : List String) (s : VaultState) : Op → VaultState
  | .upload u => store_file_insert root u s
  | .deleteOne fid => (delete_file root fid s).getD s
  | .bulk raw => (bulk_delete root raw s).1

/-- Empty vault: empty table, empty storage root, first id 1. -/
def initState : VaultState := ⟨[], [], 1⟩

/-- Run a trace of operations from the empty vault; every quiescent reachable
state is of this form. -/
def run (root : List String) (ops : List Op) : VaultState :=
  ops.foldl (execOp root) initState

/-- The upload requests occurring in a trace. -/
def uploadsOf (ops : List Op) : List UploadReq :=
  ops.filterMap (fun op => match op with | .upload u => some u | _ => none)

/-- The inductive invariant behind C4: ids are bounded by the id counter and
duplicate-free; every record's digest/path pair originates from one of the
uploads in `U` (so its path is the content-derived location); every record's
blob is on disk; and every disk file is referenced by some record. -/
def VaultInv (root : List String) (U : List UploadReq) (s : VaultState) : Prop :=
  (∀ r ∈ s.catalog, r.id < s.nextId) ∧
  (s.catalog.map (fun x => x.id)).Nodup ∧
  (∀ r ∈ s.catalog, ∃ u ∈ U, r.sha256 = u.sha ∧
    r.stored_relpath = locationFor u.sha u.ext) ∧
  (∀ r ∈ s.catalog, resolveComponents root r.stored_relpath ∈ s.disk) ∧
  (∀ q ∈ s.disk, ∃ r ∈ s.catalog, resolveComponents root r.stored_relpath = q)

/-- Upload the same content (`digest "d0"`) under two different extensions,
then delete the first record: the reference count by digest stays positive,
so the `.txt` blob is never unlinked although no record references it. -/
def opsOrphan : List Op :=
  [.upload ⟨"d0", ".txt", "a.txt", "text/plain", "m", 5, 1⟩,
   .upload ⟨"d0", ".bin", "a.bin", "application/octet-stream", "m", 5, 2⟩,
   .deleteOne 1]

/-- The same trace with a uniform extension per digest. -/
def opsUniform : List Op :=
  [.upload ⟨"d0", ".txt", "a.txt", "text/plain", "m", 5, 1⟩,
   .upload ⟨"d0", ".txt", "b.txt", "text/plain", "m", 5, 2⟩,
   .deleteOne 1]

/-! ## Concrete states and traces used by the claim theorems -/

/-- A concrete storage root (`UPLOAD_DIR = /srv/vault/uploads`). -/
def root0 : List String := ["srv", "vault", "uploads"]

/-- A state whose single record carries a crafted `stored_relpath` with a
traversal sequence; `/srv/vault/secret` is a file outside the storage root. -/
def sTraversalDelete : VaultState :=
  ⟨[⟨3, "x", ["..", "secret"], "t", 1, "d", "m", 1, 0⟩],
   [["srv", "vault", "secret"]], 4⟩

/-- Like `sTraversalDelete`, for the download path. -/
def sTraversalServe : VaultState :=
  ⟨[⟨7, "x", ["..", "secret.txt"], "t", 1, "d", "m", 1, 0⟩],
   [["srv", "vault", "secret.txt"]], 8⟩

/-- A concrete two-record state for exercising the deletion theorems:
both records carry digest `"dd"` stored at `dd/dd.txt`. -/
def sRef : VaultState :=
  ⟨[⟨1, "a", ["dd", "dd.txt"], "t", 5, "dd", "m", 1, 0⟩,
    ⟨2, "b", ["dd", "dd.txt"], "t", 5, "dd", "m", 2, 0⟩],
   [["srv", "vault", "uploads", "dd", "dd.txt"]], 3⟩

/-- Concrete digest functions for evaluating the upload route (the route's
control flow does not depend on the digest values). -/
def H0 : HashFns := ⟨fun _ => "aaaa", fun _ => "bbbb"⟩

instance : IsTotal UploadRecord listOrder :=
  ⟨by intro a b; unfold listOrder; omega⟩

instance : IsTrans UploadRecord listOrder :=
  ⟨by intro a b c; unfold listOrder; omega⟩

/-! ## Helper lemmas -/

theorem hashLoop_eq {c : Nat} (hc : 1 ≤ c) :
    ∀ fuel rest, rest.length < fuel → hashLoop fuel c rest = (rest, rest.length) := by
  intro fuel
  induction fuel with
  | zero => intro rest h; omega
  | succ n ih =>
    intro rest h
    match rest with
    | [] => simp [hashLoop]
    | a :: t =>
      obtain ⟨c', rfl⟩ : ∃ c', c = c' + 1 := ⟨c - 1, by omega⟩
      have htake : (a :: t).take (c' + 1) = a :: t.take c' := rfl
      have hdrop : (a :: t).drop (c' + 1) = t.drop c' := rfl
      have hlen : (t.drop c').length < n := by
        have ht : t.length + 1 < n + 1 := by simpa using h
        simp only [List.length_drop]
        omega
      simp only [hashLoop, htake, hdrop, ih _ hlen]
      simp only [List.cons_append, List.take_append_drop, List.length_cons,
        List.length_take, List.length_drop, Prod.mk.injEq, true_and]
      rw [if_neg (by simp)]
      simp only [Prod.mk.injEq, true_and]
      rcases Nat.le_total c' t.length with hle | hle
      · rw [Nat.min_eq_left hle]; omega
      · rw [Nat.min_eq_right hle]; omega

theorem hashChunks_eq {c : Nat} (hc : 1 ≤ c) (content : List Nat) :
    hashChunks c content = (content, content.length) :=
  hashLoop_eq hc _ content (Nat.lt_succ_self _)

/-- Record update by `increment_download_count` seen through `get_file`. -/
theorem get_file_increment (catalog : List UploadRecord) (fid : Nat) :
    get_file (increment_download_count catalog fid) fid =
      (get_file catalog fid).map
        (fun r => { r with download_count := r.download_count + 1 }) := by
  induction catalog with
  | nil => rfl
  | cons a t ih =>
    by_cases h : a.id = fid
    · simp [get_file, increment_download_count, List.find?_cons, h]
    · simpa [get_file, increment_download_count, List.find?_cons, h] using ih

theorem get_file_increment_iter (catalog : List UploadRecord) (fid N : Nat) :
    get_file (Nat.iterate (fun c => increment_download_count c fid) N catalog) fid =
      (get_file catalog fid).map
        (fun r => { r with download_count := r.download_count + N }) := by
  induction N with
  | zero =>
    cases h : get_file catalog fid
    · simp only [Function.iterate_zero, id_eq, h, Option.map_none']
    · simp only [Function.iterate_zero, id_eq, h, Option.map_some', Nat.add_zero]
  | succ n ih =>
    rw [Function.iterate_succ_apply', get_file_increment, ih]
    cases h : get_file catalog fid
    · rfl
    · simp only [Option.map_some']
      congr 1

theorem get_file_mem_id {catalog : List UploadRecord} {fid : Nat} {r : UploadRecord}
    (h : get_file catalog fid = some r) : r ∈ catalog ∧ r.id = fid := by
  refine ⟨List.mem_of_find?_eq_some h, ?_⟩
  have := List.find?_some h
  simpa using this

/-- With duplicate-free ids, two catalog members with the same id coincide. -/
theorem id_inj {catalog : List UploadRecord}
    (hnd : (catalog.map (fun x => x.id)).Nodup) :
    ∀ r1 ∈ catalog, ∀ r2 ∈ catalog, r1.id = r2.id → r1 = r2 := by
  intro r1 h1 r2 h2 h
  exact List.inj_on_of_nodup_map hnd h1 h2 h

/-! ## C6: the hasher -/

/-- C6: for every input byte sequence the hasher feeds the whole content to
the digest objects and reports its exact length, independently of the
(positive) chunk size used to consume the stream — hence identical digests
for any two chunk sizes; the empty input raises no error and yields size `0`
with the digests of the empty byte sequence; and the final stream position is
`0`, so a subsequent read sees the full content again. -/
theorem hash_fileobj_spec (c₁ c₂ : Nat) (content : List Nat)
    (h₁ : 1 ≤ c₁) (h₂ : 1 ≤ c₂) :
    hash_fileobj c₁ content = hash_fileobj c₂ content ∧
    hash_fileobj c₁ content = ((content, content.length), 0) ∧
    hash_fileobj c₁ [] = (([], 0), 0) := by
  unfold hash_fileobj
  rw [hashChunks_eq h₁, hashChunks_eq h₂, hashChunks_eq h₁]
  simp

theorem hash_fileobj_spec_w :
    (1 ≤ CHUNK ∧ 1 ≤ 7) ∧
    (hash_fileobj CHUNK [3, 1, 4] = hash_fileobj 7 [3, 1, 4] ∧
     hash_fileobj CHUNK [3, 1, 4] = (([3, 1, 4], 3), 0) ∧
     hash_fileobj CHUNK [] = (([], 0), 0)) :=
  ⟨⟨by decide, by decide⟩, hash_fileobj_spec CHUNK 7 [3, 1, 4] (by decide) (by decide)⟩

/-! ## C7: listing order -/

/-- C7: `list_files` returns all catalog records (a permutation of the table)
sorted by upload time descending with ties on identical timestamps broken by
id descending, so the newest upload is first and the order is stable under
identical timestamps. -/
theorem list_files_spec (catalog : List UploadRecord) :
    List.Sorted listOrder (list_files catalog) ∧
      List.Perm (list_files catalog) catalog :=
  ⟨List.sorted_insertionSort listOrder catalog,
   List.perm_insertionSort listOrder catalog⟩

/-! ## C8 and C10: the download counter -/

theorem increment_absent {catalog : List UploadRecord} {fid : Nat}
    (h : ∀ r ∈ catalog, r.id ≠ fid) :
    increment_download_count catalog fid = catalog := by
  induction catalog with
  | nil => rfl
  | cons a t ih =>
    have ha : a.id ≠ fid := h a (by simp)
    have ht := ih (fun r hr => h r (by simp [hr]))
    simp only [increment_download_count] at ht ⊢
    simp [ha, ht]

/-- C8: incrementing the download counter for an id with no catalog record is
a no-op that raises no error and changes no record; and `N` successful
downloads of one existing record (each download performs exactly one
`increment_download_count` call, `routes.py:download`) leave its
`download_count` equal to `N` when it starts at `0`. -/
theorem increment_download_count_spec (catalog : List UploadRecord)
    (file_id N : Nat) :
    ((∀ r ∈ catalog, r.id ≠ file_id) →
      increment_download_count catalog file_id = catalog) ∧
    (∀ r, get_file catalog file_id = some r → r.download_count = 0 →
      get_file
          (Nat.iterate (fun c => increment_download_count c file_id) N catalog)
          file_id
        = some { r with download_count := N }) := by
  refine ⟨fun h => increment_absent h, fun r hr h0 => ?_⟩
  rw [get_file_increment_iter, hr, Option.map_some', h0]
  simp

theorem increment_download_count_spec_w :
    increment_download_count
        [⟨2, "b", ["bb", "b"], "t", 1, "b", "m", 4, 7⟩] 5 =
      [⟨2, "b", ["bb", "b"], "t", 1, "b", "m", 4, 7⟩] ∧
    get_file
        (Nat.iterate (fun c => increment_download_count c 1) 3
          [⟨1, "a", ["aa", "a"], "t", 1, "a", "m", 1, 0⟩]) 1 =
      some ⟨1, "a", ["aa", "a"], "t", 1, "a", "m", 1, 3⟩ :=
  ⟨(increment_download_count_spec
      [⟨2, "b", ["bb", "b"], "t", 1, "b", "m", 4, 7⟩] 5 0).1 (by decide),
   (increment_download_count_spec
      [⟨1, "a", ["aa", "a"], "t", 1, "a", "m", 1, 0⟩] 1 3).2
      ⟨1, "a", ["aa", "a"], "t", 1, "a", "m", 1, 0⟩ (by decide) rfl⟩

theorem filter_id_singleton {catalog : List UploadRecord} {fid : Nat}
    (hnd : (catalog.map (fun x => x.id)).Nodup)
    (hex : ∃ r ∈ catalog, r.id = fid) :
    (catalog.filter (fun r0 => r0.id = fid)).length = 1 := by
  induction catalog with
  | nil => simp at hex
  | cons a t ih =>
    simp only [List.map_cons, List.nodup_cons] at hnd
    by_cases hA : a.id = fid
    · have hnone : t.filter (fun r0 => r0.id = fid) = [] := by
        refine List.filter_eq_nil_iff.mpr (fun r hr => ?_)
        simp only [decide_eq_true_eq]
        intro hrid
        exact hnd.1 (by rw [← hA] at hrid; exact hrid ▸ List.mem_map_of_mem _ hr)
      simp [List.filter_cons, hA, hnone]
    · rcases hex with ⟨r, hr, hrid⟩
      have hrt : r ∈ t := by
        rcases List.mem_cons.mp hr with rfl | h
        · exact absurd hrid hA
        · exact h
      have := ih hnd.2 ⟨r, hrt, hrid⟩
      simp [List.filter_cons, hA, this]

theorem increment_forall₂ (catalog : List UploadRecord) (fid : Nat) :
    List.Forall₂ (fun r0 r1 =>
        (r0.id = fid → r1 = { r0 with download_count := r0.download_count + 1 }) ∧
        (r0.id ≠ fid → r1 = r0))
      catalog (increment_download_count catalog fid) := by
  induction catalog with
  | nil => exact List.Forall₂.nil
  | cons a t ih =>
    refine List.Forall₂.cons ?_ ih
    by_cases h : a.id = fid <;> simp [h]

/-- C10 (frame): for an existing record id, `increment_download_count`
rewrites the catalog pointwise — the records whose id differs are returned
unchanged in place (every field, every position), and a record with the
matching id changes only its `download_count`, by exactly `+1`; with
duplicate-free ids exactly one record matches. -/
theorem increment_download_count_frame (catalog : List UploadRecord)
    (file_id : Nat) (r : UploadRecord)
    (hnd : (catalog.map (fun x => x.id)).Nodup)
    (hr : get_file catalog file_id = some r) :
    List.Forall₂ (fun r0 r1 =>
        (r0.id = file_id →
          r1 = { r0 with download_count := r0.download_count + 1 }) ∧
        (r0.id ≠ file_id → r1 = r0))
      catalog (increment_download_count catalog file_id) ∧
    (catalog.filter (fun r0 => r0.id = file_id)).length = 1 := by
  refine ⟨increment_forall₂ catalog file_id, ?_⟩
  obtain ⟨hmem, hid⟩ := get_file_mem_id hr
  exact filter_id_singleton hnd ⟨r, hmem, hid⟩

theorem increment_download_count_frame_w :
    List.Forall₂ (fun r0 r1 =>
        (r0.id = 1 → r1 = { r0 with download_count := r0.download_count + 1 }) ∧
        (r0.id ≠ 1 → r1 = r0))
      [⟨1, "a", ["aa", "a"], "t", 1, "a", "m", 1, 4⟩,
       ⟨2, "b", ["bb", "b"], "t", 2, "b", "m", 2, 9⟩]
      (increment_download_count
        [⟨1, "a", ["aa", "a"], "t", 1, "a", "m", 1, 4⟩,
         ⟨2, "b", ["bb", "b"], "t", 2, "b", "m", 2, 9⟩] 1) ∧
    (([⟨1, "a", ["aa", "a"], "t", 1, "a", "m", 1, 4⟩,
       ⟨2, "b", ["bb", "b"], "t", 2, "b", "m", 2, 9⟩] :
        List UploadRecord).filter (fun r0 => r0.id = 1)).length = 1 :=
  increment_download_count_frame
    [⟨1, "a", ["aa", "a"], "t", 1, "a", "m", 1, 4⟩,
     ⟨2, "b", ["bb", "b"], "t", 2, "b", "m", 2, 9⟩] 1
    ⟨1, "a", ["aa", "a"], "t", 1, "a", "m", 1, 4⟩ (by decide) (by decide)

/-! ## Reference-count bookkeeping lemmas -/

theorem countBySha_cons (a : UploadRecord) (t : List UploadRecord) (d : String) :
    countBySha (a :: t) d = (if a.sha256 = d then 1 else 0) + countBySha t d := by
  by_cases h : a.sha256 = d <;>
    simp [countBySha, List.filter_cons, h, Nat.add_comm]

theorem countBySha_ne_zero {cat : List UploadRecord} {d : String}
    {r : UploadRecord} (hr : r ∈ cat) (hd : r.sha256 = d) :
    countBySha cat d ≠ 0 := by
  intro h0
  have hmem : r ∈ cat.filter (fun x => x.sha256 = d) :=
    List.mem_filter.mpr ⟨hr, by simp [hd]⟩
  unfold countBySha at h0
  rw [List.length_eq_zero] at h0
  rw [h0] at hmem
  exact absurd hmem (List.not_mem_nil r)

theorem countBySha_exists {cat : List UploadRecord} {d : String}
    (h : countBySha cat d ≠ 0) : ∃ r ∈ cat, r.sha256 = d := by
  unfold countBySha at h
  have hne : cat.filter (fun r => decide (r.sha256 = d)) ≠ [] := by
    intro hnil; rw [hnil] at h; exact h rfl
  rcases List.exists_mem_of_ne_nil _ hne with ⟨r, hr⟩
  rcases List.mem_filter.mp hr with ⟨hmem, hdd⟩
  exact ⟨r, hmem, by simpa using hdd⟩

theorem deleteRow_cons (a : UploadRecord) (t : List UploadRecord) (fid : Nat) :
    deleteRowById (a :: t) fid =
      if a.id = fid then deleteRowById t fid else a :: deleteRowById t fid := by
  by_cases h : a.id = fid <;> simp [deleteRowById, List.filter_cons, h]

theorem deleteRow_eq_self {t : List UploadRecord} {fid : Nat}
    (h : ∀ x ∈ t, x.id ≠ fid) : deleteRowById t fid = t := by
  refine List.filter_eq_self.mpr (fun x hx => ?_)
  simpa using h x hx

/-- Deleting (by id) a record whose digest is `d` decrements the reference
count of `d` by exactly one when ids are duplicate-free. -/
theorem countBySha_deleteRow_of_sha {cat : List UploadRecord} {fid : Nat}
    {d : String} {r : UploadRecord}
    (hnd : (cat.map (fun x => x.id)).Nodup)
    (hr : r ∈ cat) (hid : r.id = fid) (hd : r.sha256 = d) :
    countBySha (deleteRowById cat fid) d = countBySha cat d - 1 := by
  induction cat with
  | nil => exact absurd hr (List.not_mem_nil r)
  | cons a t ih =>
    simp only [List.map_cons, List.nodup_cons] at hnd
    rw [deleteRow_cons]
    by_cases ha : a.id = fid
    · rw [if_pos ha]
      have hra : r = a := by
        rcases List.mem_cons.mp hr with rfl | hrt
        · rfl
        · exfalso
          have hm : r.id ∈ t.map (fun x => x.id) := List.mem_map_of_mem _ hrt
          rw [hid, ← ha] at hm
          exact hnd.1 hm
      have htt : deleteRowById t fid = t := by
        refine deleteRow_eq_self (fun x hx hxid => ?_)
        have hm : x.id ∈ t.map (fun x => x.id) := List.mem_map_of_mem _ hx
        rw [hxid, ← ha] at hm
        exact hnd.1 hm
      rw [htt, countBySha_cons, if_pos (hra ▸ hd)]
      simp
    · rw [if_neg ha]
      have hrt : r ∈ t := by
        rcases List.mem_cons.mp hr with rfl | h
        · exact absurd hid ha
        · exact h
      have ih' := ih hnd.2 hrt
      have hpos : countBySha t d ≠ 0 := countBySha_ne_zero hrt hd
      rw [countBySha_cons, countBySha_cons, ih']
      by_cases hsha : a.sha256 = d
      · simp [hsha]
        omega
      · simp [hsha]

/-- Deleting (by id) a record whose digest is not `d` leaves the reference
count of `d` unchanged. -/
theorem countBySha_deleteRow_of_ne {cat : List UploadRecord} {fid : Nat}
    {d : String} {r : UploadRecord}
    (hnd : (cat.map (fun x => x.id)).Nodup)
    (hr : r ∈ cat) (hid : r.id = fid) (hd : r.sha256 ≠ d) :
    countBySha (deleteRowById cat fid) d = countBySha cat d := by
  induction cat with
  | nil => exact absurd hr (List.not_mem_nil r)
  | cons a t ih =>
    simp only [List.map_cons, List.nodup_cons] at hnd
    rw [deleteRow_cons]
    by_cases ha : a.id = fid
    · rw [if_pos ha]
      have hra : r = a := by
        rcases List.mem_cons.mp hr with rfl | hrt
        · rfl
        · exfalso
          have hm : r.id ∈ t.map (fun x => x.id) := List.mem_map_of_mem _ hrt
          rw [hid, ← ha] at hm
          exact hnd.1 hm
      have htt : deleteRowById t fid = t := by
        refine deleteRow_eq_self (fun x hx hxid => ?_)
        have hm : x.id ∈ t.map (fun x => x.id) := List.mem_map_of_mem _ hx
        rw [hxid, ← ha] at hm
        exact hnd.1 hm
      rw [htt, countBySha_cons, if_neg (hra ▸ hd)]
      simp
    · rw [if_neg ha]
      have hrt : r ∈ t := by
        rcases List.mem_cons.mp hr with rfl | h
        · exact absurd hid ha
        · exact h
      have ih' := ih hnd.2 hrt
      rw [countBySha_cons, countBySha_cons, ih']

theorem nodup_ids_deleteRow {cat : List UploadRecord} {fid : Nat}
    (hnd : (cat.map (fun x => x.id)).Nodup) :
    ((deleteRowById cat fid).map (fun x => x.id)).Nodup :=
  List.Nodup.sublist (List.Sublist.map _ (List.filter_sublist cat)) hnd

theorem mem_deleteRow {cat : List UploadRecord} {fid : Nat} {r : UploadRecord} :
    r ∈ deleteRowById cat fid ↔ r ∈ cat ∧ r.id ≠ fid := by
  simp [deleteRowById, List.mem_filter]

theorem get_file_isSome_of_mem {cat : List UploadRecord} {fid : Nat}
    {r : UploadRecord} (hr : r ∈ cat) (hid : r.id = fid) :
    ∃ row, get_file cat fid = some row := by
  cases h : get_file cat fid
  · exfalso
    have := List.find?_eq_none.mp h r hr
    simp [hid] at this
  · exact ⟨_, rfl⟩

/-! ## C2: reference-counted single deletion -/

/-- Induction core for C2: running the single-delete route over a
duplicate-free list of ids of records carrying digest `d` (all stored at
relative path `p`) decrements the reference count once per delete, and at
every point the blob file at `p` is present iff the count queried after the
row deletion is nonzero. -/
theorem seqDelete_invariant (root : List String) (d : String) (p : List String) :
    ∀ (ids : List Nat) (s : VaultState),
      (∀ r ∈ s.catalog, r.sha256 = d → r.stored_relpath = p) →
      (s.catalog.map (fun x => x.id)).Nodup →
      (∀ i ∈ ids, ∃ r ∈ s.catalog, r.id = i ∧ r.sha256 = d) →
      ids.Nodup →
      (resolveComponents root p ∈ s.disk ↔ countBySha s.catalog d ≠ 0) →
      countBySha (seqDelete root ids s).catalog d
          = countBySha s.catalog d - ids.length ∧
      (resolveComponents root p ∈ (seqDelete root ids s).disk ↔
        countBySha (seqDelete root ids s).catalog d ≠ 0) := by
  intro ids
  induction ids with
  | nil =>
    intro s hA hD hids hnodup hiff
    exact ⟨by simp [seqDelete], hiff⟩
  | cons i ids ih =>
    intro s hA hD hids hnodup hiff
    obtain ⟨r, hr, hrid, hrd⟩ := hids i (by simp)
    obtain ⟨row, hrow⟩ := get_file_isSome_of_mem hr hrid
    have hrowr : row = r := by
      obtain ⟨hrowmem, hrowid⟩ := get_file_mem_id hrow
      exact id_inj hD row hrowmem r hr (by rw [hrowid, hrid])
    subst hrowr
    simp only [List.nodup_cons] at hnodup
    have hcs : countBySha s.catalog d ≠ 0 := countBySha_ne_zero hr hrd
    -- the state after one delete_file
    have hstep : seqDelete root (i :: ids) s =
        seqDelete root ids
          (delete_blob_if_unreferenced root row.sha256 row.stored_relpath
            { s with catalog := deleteRowById s.catalog i }) := by
      simp [seqDelete, delete_file, hrow]
    have hrelp : row.stored_relpath = p := hA row hr hrd
    have hcount1 : countBySha (deleteRowById s.catalog i) d
        = countBySha s.catalog d - 1 :=
      countBySha_deleteRow_of_sha hD hr hrid hrd
    set s2 := delete_blob_if_unreferenced root row.sha256 row.stored_relpath
      { s with catalog := deleteRowById s.catalog i } with hs2
    have hs2cat : s2.catalog = deleteRowById s.catalog i := by
      unfold delete_blob_if_unreferenced at hs2
      by_cases hc : countBySha (deleteRowById s.catalog i) row.sha256 = 0 <;>
        simp [hs2, hc]
    have hA2 : ∀ r' ∈ s2.catalog, r'.sha256 = d → r'.stored_relpath = p := by
      rw [hs2cat]
      intro r' hmem hd'
      exact hA r' (mem_deleteRow.mp hmem).1 hd'
    have hD2 : (s2.catalog.map (fun x => x.id)).Nodup := by
      rw [hs2cat]; exact nodup_ids_deleteRow hD
    have hids2 : ∀ j ∈ ids, ∃ r' ∈ s2.catalog, r'.id = j ∧ r'.sha256 = d := by
      intro j hj
      obtain ⟨rj, hrjmem, hrjid, hrjd⟩ := hids j (by simp [hj])
      refine ⟨rj, ?_, hrjid, hrjd⟩
      rw [hs2cat]
      refine mem_deleteRow.mpr ⟨hrjmem, ?_⟩
      rw [hrjid]
      intro hji
      exact hnodup.1 (hji ▸ hj)
    have hiff2 : resolveComponents root p ∈ s2.disk ↔
        countBySha s2.catalog d ≠ 0 := by
      rw [hs2cat]
      unfold delete_blob_if_unreferenced at hs2
      rw [hrd] at hs2
      by_cases hc : countBySha (deleteRowById s.catalog i) d = 0
      · rw [hs2]
        simp only [hc, if_pos rfl]
        constructor
        · intro hmem
          rcases List.mem_filter.mp hmem with ⟨_, hne⟩
          rw [hrelp] at hne
          simp at hne
        · intro hne
          exact absurd rfl hne
      · rw [hs2]
        simp only [if_neg hc]
        exact iff_of_true (hiff.mpr hcs) hc
    obtain ⟨hcnt, hifffin⟩ := ih s2 hA2 hD2 hids2 hnodup.2 hiff2
    rw [hstep]
    refine ⟨?_, hifffin⟩
    rw [hcnt, hs2cat, hcount1]
    simp only [List.length_cons]
    omega

/-- C2: for a state in which the records carrying digest `d` all store their
blob at relative path `p` (`storedRelPath` is derived from the digest), with
duplicate-free record and request ids, deleting records of digest `d` one at
a time through the single-delete route decrements the catalog's reference
count for `d` once per delete, and the blob file is present afterwards iff
that count — queried at call time, after the row deletion — is nonzero.  In
particular, deleting `N - 1` of `N` such records leaves the blob file on
disk, and deleting the `N`-th removes it. -/
theorem delete_file_refcounted (root : List String) (s : VaultState)
    (d : String) (p : List String) (ids : List Nat)
    (hA : ∀ r ∈ s.catalog, r.sha256 = d → r.stored_relpath = p)
    (hD : (s.catalog.map (fun x => x.id)).Nodup)
    (hids : ∀ i ∈ ids, ∃ r ∈ s.catalog, r.id = i ∧ r.sha256 = d)
    (hnodup : ids.Nodup)
    (hdisk : resolveComponents root p ∈ s.disk)
    (hN : countBySha s.catalog d ≠ 0) :
    countBySha (seqDelete root ids s).catalog d
        = countBySha s.catalog d - ids.length ∧
    (resolveComponents root p ∈ (seqDelete root ids s).disk ↔
      countBySha (seqDelete root ids s).catalog d ≠ 0) :=
  seqDelete_invariant root d p ids s hA hD hids hnodup (iff_of_true hdisk hN)

theorem delete_file_refcounted_w :
    countBySha (seqDelete ["srv", "vault", "uploads"] [1] sRef).catalog "dd"
        = countBySha sRef.catalog "dd" - [1].length ∧
    (resolveComponents ["srv", "vault", "uploads"] ["dd", "dd.txt"]
          ∈ (seqDelete ["srv", "vault", "uploads"] [1] sRef).disk ↔
      countBySha (seqDelete ["srv", "vault", "uploads"] [1] sRef).catalog "dd"
        ≠ 0) :=
  delete_file_refcounted ["srv", "vault", "uploads"] sRef "dd" ["dd", "dd.txt"]
    [1] (by decide) (by decide) (by decide) (by decide) (by decide) (by decide)

/-! ## C9: bulk delete reporting -/

theorem phase1_remaining : ∀ (ids : List Nat) (cat : List UploadRecord),
    (phase1 ids cat).1 = cat.filter (fun r => decide (r.id ∉ ids)) := by
  intro ids
  induction ids with
  | nil => intro cat; simp [phase1]
  | cons fid ids ih =>
    intro cat
    simp only [phase1]
    cases hf : cat.find? (fun r => r.id = fid) with
    | some row =>
      simp only []
      rw [ih, List.filter_filter]
      refine List.filter_congr (fun r hr => ?_)
      simp only [List.mem_cons, not_or, decide_not]
      cases hfid : decide (r.id = fid) <;> cases hm : decide (r.id ∈ ids) <;>
        simp_all
    | none =>
      rw [ih]
      refine List.filter_congr (fun r hr => ?_)
      have hne : ¬ r.id = fid := by
        have := List.find?_eq_none.mp hf r hr
        simpa using this
      simp [List.mem_cons, hne]

theorem phase1_rows_mem : ∀ (ids : List Nat) (cat : List UploadRecord)
    (r : UploadRecord), r ∈ (phase1 ids cat).2 → r ∈ cat := by
  intro ids
  induction ids with
  | nil => intro cat r h; simp [phase1] at h
  | cons fid ids ih =>
    intro cat r h
    simp only [phase1] at h
    cases hf : cat.find? (fun x => x.id = fid) with
    | some row =>
      rw [hf] at h
      simp only [List.mem_cons] at h
      rcases h with rfl | h
      · exact List.mem_of_find?_eq_some hf
      · exact (List.mem_filter.mp (ih _ r h)).1
    | none =>
      rw [hf] at h
      exact ih cat r h

theorem phase1_rows_of_mem : ∀ (ids : List Nat) (cat : List UploadRecord)
    (r : UploadRecord), (cat.map (fun x => x.id)).Nodup → r ∈ cat →
    r.id ∈ ids → r ∈ (phase1 ids cat).2 := by
  intro ids
  induction ids with
  | nil => intro cat r _ _ h; simp at h
  | cons fid ids ih =>
    intro cat r hnd hr hin
    simp only [phase1]
    by_cases hid : r.id = fid
    · obtain ⟨row, hrow⟩ := get_file_isSome_of_mem hr hid
      have hrowr : row = r := by
        obtain ⟨hrowmem, hrowid⟩ := get_file_mem_id hrow
        exact id_inj hnd row hrowmem r hr (by rw [hrowid, hid])
      unfold get_file at hrow
      rw [hrow, hrowr]
      simp
    · have hin' : r.id ∈ ids := by
        rcases List.mem_cons.mp hin with h | h
        · exact absurd h hid
        · exact h
      cases hf : cat.find? (fun x => x.id = fid) with
      | some row =>
        have hr' : r ∈ cat.filter (fun x => decide (x.id ≠ fid)) :=
          List.mem_filter.mpr ⟨hr, by simpa using hid⟩
        have hnd' : ((cat.filter (fun x => decide (x.id ≠ fid))).map
            (fun x => x.id)).Nodup :=
          List.Nodup.sublist (List.Sublist.map _ (List.filter_sublist cat)) hnd
        simp only [List.mem_cons]
        exact Or.inr (ih _ r hnd' hr' hin')
      | none => exact ih cat r hnd hr hin'

theorem length_deleteRow {cat : List UploadRecord} {fid : Nat}
    {r : UploadRecord} (hnd : (cat.map (fun x => x.id)).Nodup)
    (hr : r ∈ cat) (hid : r.id = fid) :
    (deleteRowById cat fid).length + 1 = cat.length := by
  have hsplit := List.length_eq_length_filter_add
    (l := cat) (fun x => decide (x.id = fid))
  have hone : (cat.filter (fun x => decide (x.id = fid))).length = 1 :=
    filter_id_singleton hnd ⟨r, hr, hid⟩
  have hsame : cat.filter (fun x => !decide (x.id = fid))
      = deleteRowById cat fid := by
    refine List.filter_congr (fun x hx => ?_)
    simp [decide_not]
  rw [hsame] at hsplit
  omega

theorem phase1_len : ∀ (ids : List Nat) (cat : List UploadRecord),
    (cat.map (fun x => x.id)).Nodup →
    (phase1 ids cat).1.length + (phase1 ids cat).2.length = cat.length := by
  intro ids
  induction ids with
  | nil => intro cat _; simp [phase1]
  | cons fid ids ih =>
    intro cat hnd
    simp only [phase1]
    cases hf : cat.find? (fun x => x.id = fid) with
    | some row =>
      obtain ⟨hrowmem, hrowid⟩ := get_file_mem_id (r := row) hf
      have hnd' : ((cat.filter (fun x => decide (x.id ≠ fid))).map
          (fun x => x.id)).Nodup :=
        List.Nodup.sublist (List.Sublist.map _ (List.filter_sublist cat)) hnd
      have ihx := ih _ hnd'
      have hlen := length_deleteRow hnd hrowmem hrowid
      simp only [deleteRowById] at hlen
      simp only [List.length_cons]
      omega
    | none => exact ih cat hnd

/-- C9: a bulk-delete request deletes exactly the records whose (integer)
ids were requested — non-integer form values and ids with no record are
skipped without any fault (the operation is total and touches nothing for
them) — and the reported count is the number of records actually deleted:
the drop in catalog size, equivalently the number of requested ids that had
a record. -/
theorem bulk_delete_report (root : List String) (raw_ids : List String)
    (s : VaultState) (hnd : (s.catalog.map (fun x => x.id)).Nodup) :
    (bulk_delete root raw_ids s).2
        = s.catalog.length - (bulk_delete root raw_ids s).1.catalog.length ∧
    (bulk_delete root raw_ids s).1.catalog
        = s.catalog.filter (fun r => decide (r.id ∉ raw_ids.filterMap pyInt?)) ∧
    (bulk_delete root raw_ids s).2
        = (s.catalog.filter
            (fun r => decide (r.id ∈ raw_ids.filterMap pyInt?))).length := by
  have hrem := phase1_remaining (raw_ids.filterMap pyInt?) s.catalog
  have hlen := phase1_len (raw_ids.filterMap pyInt?) s.catalog hnd
  have hcat : (bulk_delete root raw_ids s).1.catalog
      = (phase1 (raw_ids.filterMap pyInt?) s.catalog).1 := rfl
  have hcnt : (bulk_delete root raw_ids s).2
      = (phase1 (raw_ids.filterMap pyInt?) s.catalog).2.length := rfl
  have hsplit := List.length_eq_length_filter_add (l := s.catalog)
    (fun r => decide (r.id ∈ raw_ids.filterMap pyInt?))
  have hsame : s.catalog.filter
        (fun r => !decide (r.id ∈ raw_ids.filterMap pyInt?))
      = s.catalog.filter
        (fun r => decide (r.id ∉ raw_ids.filterMap pyInt?)) := by
    refine List.filter_congr (fun x hx => ?_)
    rw [decide_not]
  rw [hsame] at hsplit
  refine ⟨?_, ?_, ?_⟩
  · rw [hcat, hcnt, hrem]
    rw [hrem] at hlen
    omega
  · rw [hcat, hrem]
  · rw [hcnt]
    rw [hrem] at hlen
    omega

theorem bulk_delete_report_w :
    (bulk_delete ["srv", "vault", "uploads"] ["2", "zz", "9"] sRef).2
        = sRef.catalog.length
          - (bulk_delete ["srv", "vault", "uploads"] ["2", "zz", "9"]
              sRef).1.catalog.length ∧
    (bulk_delete ["srv", "vault", "uploads"] ["2", "zz", "9"] sRef).1.catalog
        = sRef.catalog.filter
            (fun r => decide (r.id ∉ ["2", "zz", "9"].filterMap pyInt?)) ∧
    (bulk_delete ["srv", "vault", "uploads"] ["2", "zz", "9"] sRef).2
        = (sRef.catalog.filter
            (fun r => decide (r.id ∈ ["2", "zz", "9"].filterMap pyInt?))).length :=
  bulk_delete_report ["srv", "vault", "uploads"] ["2", "zz", "9"] sRef
    (by decide)

/-! ## C3: bulk delete removes a fully-dereferenced blob exactly once -/

theorem mem_unlinkPath {disk : List (List String)} {p q : List String} :
    q ∈ unlinkPath disk p ↔ q ∈ disk ∧ q ≠ p := by
  simp [unlinkPath, List.mem_filter]

theorem blobPass_disk_mem (root : List String) (cat' : List UploadRecord) :
    ∀ (rows : List UploadRecord) (disk : List (List String)) (q : List String),
      q ∈ (blobPass root cat' rows disk).1 ↔
        q ∈ disk ∧ ∀ r ∈ rows, countBySha cat' r.sha256 = 0 →
          resolveComponents root r.stored_relpath ≠ q := by
  intro rows
  induction rows with
  | nil => intro disk q; simp [blobPass]
  | cons r rows ih =>
    intro disk q
    by_cases hc : countBySha cat' r.sha256 = 0
    · have hstep : (blobPass root cat' (r :: rows) disk).1
          = (blobPass root cat' rows
              (unlinkPath disk (resolveComponents root r.stored_relpath))).1 := by
        simp [blobPass, hc]
      rw [hstep, ih]
      constructor
      · rintro ⟨hq, hrest⟩
        rcases mem_unlinkPath.mp hq with ⟨hqd, hqne⟩
        refine ⟨hqd, fun r' hr' hc' => ?_⟩
        rcases List.mem_cons.mp hr' with rfl | hr'
        · exact fun he => hqne he.symm
        · exact hrest r' hr' hc'
      · rintro ⟨hqd, hall⟩
        refine ⟨mem_unlinkPath.mpr ⟨hqd, ?_⟩,
          fun r' hr' hc' => hall r' (by simp [hr']) hc'⟩
        intro he
        exact hall r (by simp) hc he.symm
    · have hstep : (blobPass root cat' (r :: rows) disk).1
          = (blobPass root cat' rows disk).1 := by
        simp [blobPass, hc]
      rw [hstep, ih]
      constructor
      · rintro ⟨hq, hrest⟩
        refine ⟨hq, fun r' hr' hc' => ?_⟩
        rcases List.mem_cons.mp hr' with rfl | h
        · exact absurd hc' hc
        · exact hrest r' h hc'
      · rintro ⟨hq, hall⟩
        exact ⟨hq, fun r' hr' hc' => hall r' (by simp [hr']) hc'⟩

/-- Once the file at `q` is gone it never reappears during the blob pass, and
no further unlink event at `q` is logged. -/
theorem blobPass_log_absent (root : List String) (cat' : List UploadRecord) :
    ∀ (rows : List UploadRecord) (disk : List (List String)) (q : List String),
      q ∉ disk →
      (blobPass root cat' rows disk).2.count q = 0 ∧
        q ∉ (blobPass root cat' rows disk).1 := by
  intro rows
  induction rows with
  | nil =>
    intro disk q hq
    exact ⟨by simp [blobPass], by simpa [blobPass] using hq⟩
  | cons r rows ih =>
    intro disk q hq
    by_cases hc : countBySha cat' r.sha256 = 0
    · have hstep : blobPass root cat' (r :: rows) disk
          = ((blobPass root cat' rows
                (unlinkPath disk (resolveComponents root r.stored_relpath))).1,
             (if resolveComponents root r.stored_relpath ∈ disk
                then [resolveComponents root r.stored_relpath] else [])
               ++ (blobPass root cat' rows
                (unlinkPath disk (resolveComponents root r.stored_relpath))).2) := by
        simp [blobPass, hc]
      have hq' : q ∉ unlinkPath disk (resolveComponents root r.stored_relpath) :=
        fun h => hq (mem_unlinkPath.mp h).1
      obtain ⟨hcnt, hmem⟩ := ih _ q hq'
      have hhead : (if resolveComponents root r.stored_relpath ∈ disk
            then [resolveComponents root r.stored_relpath] else []).count q = 0 := by
        by_cases hmemd : resolveComponents root r.stored_relpath ∈ disk
        · have hne : ¬ resolveComponents root r.stored_relpath = q :=
            fun he => hq (he ▸ hmemd)
          simp [if_pos hmemd, List.count_cons, hne]
        · simp [if_neg hmemd]
      rw [hstep]
      exact ⟨by simp [List.count_append, hhead, hcnt], hmem⟩
    · have hstep : blobPass root cat' (r :: rows) disk
          = blobPass root cat' rows disk := by
        simp [blobPass, hc]
      rw [hstep]
      exact ih disk q hq

/-- Core of C3: when every remembered row of digest `d` stores its blob at
the (resolved) path `q`, rows of other digests never touch `q`, the
post-batch reference count of `d` is `0`, the blob is initially present and
at least one remembered row has digest `d`, the blob pass removes the file
at `q` exactly once. -/
theorem blobPass_count_one (root : List String) (cat' : List UploadRecord)
    (d : String) (q : List String) (hcd : countBySha cat' d = 0) :
    ∀ (rows : List UploadRecord) (disk : List (List String)),
      (∀ r ∈ rows,
        (r.sha256 = d → resolveComponents root r.stored_relpath = q) ∧
        (r.sha256 ≠ d → resolveComponents root r.stored_relpath ≠ q)) →
      q ∈ disk → (∃ r ∈ rows, r.sha256 = d) →
      (blobPass root cat' rows disk).2.count q = 1 ∧
        q ∉ (blobPass root cat' rows disk).1 := by
  intro rows
  induction rows with
  | nil => intro disk _ _ hex; simp at hex
  | cons r rows ih =>
    intro disk hcond hq hex
    by_cases hsha : r.sha256 = d
    · have hp : resolveComponents root r.stored_relpath = q :=
        (hcond r (by simp)).1 hsha
      have hc : countBySha cat' r.sha256 = 0 := by rw [hsha]; exact hcd
      have hstep : blobPass root cat' (r :: rows) disk
          = ((blobPass root cat' rows (unlinkPath disk q)).1,
             [q] ++ (blobPass root cat' rows (unlinkPath disk q)).2) := by
        simp [blobPass, hc, hp, hq]
      have hqout : q ∉ unlinkPath disk q := by
        intro h; exact (mem_unlinkPath.mp h).2 rfl
      obtain ⟨hcnt, hmem⟩ := blobPass_log_absent root cat' rows _ q hqout
      rw [hstep]
      exact ⟨by simp [List.count_append, hcnt], hmem⟩
    · have hne : resolveComponents root r.stored_relpath ≠ q :=
        (hcond r (by simp)).2 hsha
      have hex' : ∃ r' ∈ rows, r'.sha256 = d := by
        rcases hex with ⟨r', hr', hd'⟩
        rcases List.mem_cons.mp hr' with rfl | h
        · exact absurd hd' hsha
        · exact ⟨r', h, hd'⟩
      have hcond' : ∀ r' ∈ rows,
          (r'.sha256 = d → resolveComponents root r'.stored_relpath = q) ∧
          (r'.sha256 ≠ d → resolveComponents root r'.stored_relpath ≠ q) :=
        fun r' hr' => hcond r' (by simp [hr'])
      by_cases hc : countBySha cat' r.sha256 = 0
      · have hstep : blobPass root cat' (r :: rows) disk
            = ((blobPass root cat' rows
                  (unlinkPath disk (resolveComponents root r.stored_relpath))).1,
               (if resolveComponents root r.stored_relpath ∈ disk
                  then [resolveComponents root r.stored_relpath] else [])
                 ++ (blobPass root cat' rows
                  (unlinkPath disk (resolveComponents root r.stored_relpath))).2) := by
          simp [blobPass, hc]
        have hq' : q ∈ unlinkPath disk (resolveComponents root r.stored_relpath) :=
          mem_unlinkPath.mpr ⟨hq, fun he => hne he.symm⟩
        obtain ⟨hcnt, hmem⟩ := ih _ hcond' hq' hex'
        have hhead : (if resolveComponents root r.stored_relpath ∈ disk
              then [resolveComponents root r.stored_relpath] else []).count q = 0 := by
          by_cases hmemd : resolveComponents root r.stored_relpath ∈ disk
          · simp [if_pos hmemd, List.count_cons, hne]
          · simp [if_neg hmemd]
        rw [hstep]
        exact ⟨by simp [List.count_append, hhead, hcnt], hmem⟩
      · have hstep : blobPass root cat' (r :: rows) disk
            = blobPass root cat' rows disk := by
          simp [blobPass, hc]
        rw [hstep]
        exact ih disk hcond' hq hex'

/-- C3: issuing one bulk-delete call whose ids cover every live record of
digest `d` (all stored at relative path `p`; records of other digests do not
resolve to `p`): the whole batch of row deletions is issued first, so the
reference count each blob decision queries is the post-batch one and equals
`0`; the outcome on disk is exactly one removal of the blob file — the ghost
unlink log records the blob's path exactly once, not `N` times — and the
blob file is absent afterwards. -/
theorem bulk_delete_single_blob_removal (root : List String)
    (raw_ids : List String) (s : VaultState) (d : String) (p : List String)
    (hA : ∀ r ∈ s.catalog, r.sha256 = d → r.stored_relpath = p)
    (hsep : ∀ r ∈ s.catalog, r.sha256 ≠ d →
      resolveComponents root r.stored_relpath ≠ resolveComponents root p)
    (hnd : (s.catalog.map (fun x => x.id)).Nodup)
    (hcov : ∀ r ∈ s.catalog, r.sha256 = d → r.id ∈ raw_ids.filterMap pyInt?)
    (hdisk : resolveComponents root p ∈ s.disk)
    (hN : countBySha s.catalog d ≠ 0) :
    countBySha (phase1 (raw_ids.filterMap pyInt?) s.catalog).1 d = 0 ∧
    (blobPass root (phase1 (raw_ids.filterMap pyInt?) s.catalog).1
        (phase1 (raw_ids.filterMap pyInt?) s.catalog).2 s.disk).2.count
        (resolveComponents root p) = 1 ∧
    resolveComponents root p ∉ (bulk_delete root raw_ids s).1.disk := by
  have hzero : countBySha (phase1 (raw_ids.filterMap pyInt?) s.catalog).1 d
      = 0 := by
    by_contra h
    obtain ⟨r, hr, hrd⟩ := countBySha_exists h
    rw [phase1_remaining] at hr
    rcases List.mem_filter.mp hr with ⟨hmem, hnot⟩
    have hin := hcov r hmem hrd
    simp only [decide_eq_true_eq] at hnot
    exact hnot hin
  have hrowscond : ∀ r ∈ (phase1 (raw_ids.filterMap pyInt?) s.catalog).2,
      (r.sha256 = d →
        resolveComponents root r.stored_relpath = resolveComponents root p) ∧
      (r.sha256 ≠ d →
        resolveComponents root r.stored_relpath ≠ resolveComponents root p) := by
    intro r hr
    have hmem := phase1_rows_mem (raw_ids.filterMap pyInt?) s.catalog r hr
    exact ⟨fun hd => by rw [hA r hmem hd], fun hd => hsep r hmem hd⟩
  have hex : ∃ r ∈ (phase1 (raw_ids.filterMap pyInt?) s.catalog).2,
      r.sha256 = d := by
    obtain ⟨r, hr, hrd⟩ := countBySha_exists hN
    exact ⟨r, phase1_rows_of_mem (raw_ids.filterMap pyInt?) s.catalog r hnd hr
      (hcov r hr hrd), hrd⟩
  obtain ⟨hcnt, hnot⟩ := blobPass_count_one root
    (phase1 (raw_ids.filterMap pyInt?) s.catalog).1 d
    (resolveComponents root p) hzero
    (phase1 (raw_ids.filterMap pyInt?) s.catalog).2 s.disk hrowscond hdisk hex
  exact ⟨hzero, hcnt, hnot⟩

theorem bulk_delete_single_blob_removal_w :
    countBySha (phase1 (["1", "2"].filterMap pyInt?) sRef.catalog).1 "dd" = 0 ∧
    (blobPass ["srv", "vault", "uploads"]
        (phase1 (["1", "2"].filterMap pyInt?) sRef.catalog).1
        (phase1 (["1", "2"].filterMap pyInt?) sRef.catalog).2 sRef.disk).2.count
        (resolveComponents ["srv", "vault", "uploads"] ["dd", "dd.txt"]) = 1 ∧
    resolveComponents ["srv", "vault", "uploads"] ["dd", "dd.txt"]
        ∉ (bulk_delete ["srv", "vault", "uploads"] ["1", "2"] sRef).1.disk :=
  bulk_delete_single_blob_removal ["srv", "vault", "uploads"] ["1", "2"] sRef
    "dd" ["dd", "dd.txt"] (by decide) (by decide) (by decide) (by decide)
    (by decide) (by decide)

/-! ## C1: path safety of the blob operations -/

/-- C1 (violated by the code): a stored relative path containing a traversal
sequence resolves outside the configured storage root, yet neither blob
operation refuses it: the single-delete route unlinks the file at the escaped
path (`/srv/vault/secret`, outside `/srv/vault/uploads`, disappears from
disk), and the download route serves the file at an escaped path.  No
containment check exists on these paths (`storage.py:61-80`,
`routes.py:127-136`), unlike the legacy `app.py` which guards both serving
(line 324) and deletion (line 382) with a `startswith(BASE_DIR)` test. -/
theorem blob_ops_follow_escaping_paths :
    ¬ insideRoot root0 (resolveComponents root0 ["..", "secret"]) ∧
    delete_file root0 3 sTraversalDelete = some ⟨[], [], 4⟩ ∧
    (download_route root0 7 sTraversalServe).2 = some ["srv", "vault", "secret.txt"] ∧
    ¬ insideRoot root0 ["srv", "vault", "secret.txt"] := by decide

/-! ## C5: upload with a filename that sanitizes to empty -/

/-- C5 (violated by `routes.py`): the filename `"??"` is non-empty, so it
passes the only check `routes.py:upload` performs, but sanitizes to the empty
string; the route neither rejects the request nor leaves the state unchanged:
it writes a blob file and inserts a catalog record whose
`filename_original` is `""`.  The legacy `app.py:upload` rejects the same
request with `400 Invalid filename` before any state is mutated. -/
theorem empty_sanitized_filename_not_rejected :
    secure_filename "??" = "" ∧
    upload_route H0 root0 (some "??") [104, 105] "application/octet-stream" 9
        initState =
      .ok ⟨[⟨1, "", ["aa", "aaaa"], "application/octet-stream", 2, "aaaa",
             "bbbb", 9, 0⟩],
           [["srv", "vault", "uploads", "aa", "aaaa"]], 2⟩ ∧
    app_upload_check (some "??") = .error 400 := by decide

/-! ## C4: the blob-on-disk / record invariant -/

theorem resolve_good : ∀ (l : List String) (acc : List String),
    (∀ c ∈ l, goodComp c) → resolveComponents acc l = acc ++ l := by
  intro l
  induction l with
  | nil => intro acc _; simp [resolveComponents]
  | cons c rest ih =>
    intro acc hg
    obtain ⟨h1, h2, h3⟩ := hg c (by simp)
    simp only [resolveComponents]
    rw [if_neg h3, if_neg (by simp [h1, h2]), ih _ (fun x hx => hg x (by simp [hx]))]
    simp

theorem mem_writeBlob {disk : List (List String)} {p q : List String} :
    q ∈ writeBlob disk p ↔ q ∈ disk ∨ q = p := by
  unfold writeBlob
  by_cases h : p ∈ disk
  · simp only [if_pos h]
    constructor
    · exact Or.inl
    · rintro (hq | rfl)
      · exact hq
      · exact h
  · simp [if_neg h]

/-- A record whose digest/path pair originates from an upload in `U` has a
path of well-formed components. -/
theorem origin_good {U : List UploadReq}
    (hUg : ∀ u ∈ U, goodComp (u.sha.take 2) ∧ goodComp (u.sha ++ u.ext))
    {r : UploadRecord}
    (h : ∃ u ∈ U, r.sha256 = u.sha ∧ r.stored_relpath = locationFor u.sha u.ext) :
    ∀ c ∈ r.stored_relpath, goodComp c := by
  obtain ⟨u, hu, _, hpath⟩ := h
  obtain ⟨hg1, hg2⟩ := hUg u hu
  intro c hc
  rw [hpath] at hc
  simp only [locationFor, List.mem_cons, List.not_mem_nil, or_false] at hc
  rcases hc with rfl | rfl
  · exact hg1
  · exact hg2

/-- Two records sharing a digest share the stored path, when every digest is
uploaded with one fixed extension. -/
theorem origin_path_of_sha {U : List UploadReq}
    (hUu : ∀ u1 ∈ U, ∀ u2 ∈ U, u1.sha = u2.sha → u1.ext = u2.ext)
    {r1 r2 : UploadRecord}
    (h1 : ∃ u ∈ U, r1.sha256 = u.sha ∧ r1.stored_relpath = locationFor u.sha u.ext)
    (h2 : ∃ u ∈ U, r2.sha256 = u.sha ∧ r2.stored_relpath = locationFor u.sha u.ext)
    (hs : r1.sha256 = r2.sha256) :
    r1.stored_relpath = r2.stored_relpath := by
  obtain ⟨u1, hu1, hs1, hp1⟩ := h1
  obtain ⟨u2, hu2, hs2, hp2⟩ := h2
  have hsha : u1.sha = u2.sha := by rw [← hs1, ← hs2, hs]
  have hext := hUu u1 hu1 u2 hu2 hsha
  rw [hp1, hp2, hsha, hext]

/-- Two records whose stored paths resolve to the same absolute path share
the digest (content addressing makes locations injective). -/
theorem origin_sha_of_resolve {root : List String} {U : List UploadReq}
    (hUg : ∀ u ∈ U, goodComp (u.sha.take 2) ∧ goodComp (u.sha ++ u.ext))
    (hUi : ∀ u1 ∈ U, ∀ u2 ∈ U,
      locationFor u1.sha u1.ext = locationFor u2.sha u2.ext → u1.sha = u2.sha)
    {r1 r2 : UploadRecord}
    (h1 : ∃ u ∈ U, r1.sha256 = u.sha ∧ r1.stored_relpath = locationFor u.sha u.ext)
    (h2 : ∃ u ∈ U, r2.sha256 = u.sha ∧ r2.stored_relpath = locationFor u.sha u.ext)
    (hp : resolveComponents root r1.stored_relpath
        = resolveComponents root r2.stored_relpath) :
    r1.sha256 = r2.sha256 := by
  have hg1 := origin_good hUg h1
  have hg2 := origin_good hUg h2
  rw [resolve_good _ root hg1, resolve_good _ root hg2] at hp
  have hpath := List.append_cancel_left hp
  obtain ⟨u1, hu1, hs1, hp1⟩ := h1
  obtain ⟨u2, hu2, hs2, hp2⟩ := h2
  rw [hp1, hp2] at hpath
  rw [hs1, hs2]
  exact hUi u1 hu1 u2 hu2 hpath

theorem inv_init (root : List String) (U : List UploadReq) :
    VaultInv root U initState := by
  refine ⟨?_, ?_, ?_, ?_, ?_⟩ <;> simp [initState]

theorem inv_upload (root : List String) (U : List UploadReq)
    (u : UploadReq) (hu : u ∈ U) (s : VaultState) (h : VaultInv root U s) :
    VaultInv root U (store_file_insert root u s) := by
  obtain ⟨hI0, hI1, hI2, hI3, hI4⟩ := h
  refine ⟨?_, ?_, ?_, ?_, ?_⟩
  · intro r hr
    simp only [store_file_insert, List.mem_append, List.mem_singleton] at hr
    rcases hr with hr | rfl
    · exact Nat.lt_succ_of_lt (hI0 r hr)
    · exact Nat.lt_succ_self _
  · simp only [store_file_insert, List.map_append, List.map_cons, List.map_nil]
    refine List.Nodup.append hI1 (by simp) ?_
    intro a ha hb
    simp only [List.mem_singleton] at hb
    subst hb
    rcases List.mem_map.mp ha with ⟨r, hr, hid⟩
    exact absurd hid (Nat.ne_of_lt (hI0 r hr))
  · intro r hr
    simp only [store_file_insert, List.mem_append, List.mem_singleton] at hr
    rcases hr with hr | rfl
    · exact hI2 r hr
    · exact ⟨u, hu, rfl, rfl⟩
  · intro r hr
    simp only [store_file_insert, List.mem_append, List.mem_singleton] at hr
    rcases hr with hr | rfl
    · exact mem_writeBlob.mpr (Or.inl (hI3 r hr))
    · exact mem_writeBlob.mpr (Or.inr rfl)
  · intro q hq
    rcases mem_writeBlob.mp hq with hq | rfl
    · obtain ⟨r, hr, he⟩ := hI4 q hq
      exact ⟨r, by simp [store_file_insert, hr], he⟩
    · exact ⟨⟨s.nextId, u.fname, locationFor u.sha u.ext, u.ct, u.size, u.sha,
        u.md5h, u.ts, 0⟩, by simp [store_file_insert], rfl⟩

theorem inv_deleteOne (root : List String) (U : List UploadReq)
    (hUg : ∀ u ∈ U, goodComp (u.sha.take 2) ∧ goodComp (u.sha ++ u.ext))
    (hUu : ∀ u1 ∈ U, ∀ u2 ∈ U, u1.sha = u2.sha → u1.ext = u2.ext)
    (hUi : ∀ u1 ∈ U, ∀ u2 ∈ U,
      locationFor u1.sha u1.ext = locationFor u2.sha u2.ext → u1.sha = u2.sha)
    (fid : Nat) (s : VaultState) (h : VaultInv root U s) :
    VaultInv root U ((delete_file root fid s).getD s) := by
  cases hf : get_file s.catalog fid with
  | none => simpa [delete_file, hf] using h
  | some row =>
    obtain ⟨hI0, hI1, hI2, hI3, hI4⟩ := h
    obtain ⟨hrowmem, hrowid⟩ := get_file_mem_id hf
    simp only [delete_file, hf, Option.getD_some, delete_blob_if_unreferenced]
    by_cases hc : countBySha (deleteRowById s.catalog fid) row.sha256 = 0
    · simp only [hc, if_pos rfl]
      refine ⟨?_, ?_, ?_, ?_, ?_⟩
      · exact fun r hr => hI0 r (mem_deleteRow.mp hr).1
      · exact nodup_ids_deleteRow hI1
      · exact fun r hr => hI2 r (mem_deleteRow.mp hr).1
      · intro r hr
        have hmem := (mem_deleteRow.mp hr).1
        refine mem_unlinkPath.mpr ⟨hI3 r hmem, ?_⟩
        intro he
        have hsha : r.sha256 = row.sha256 :=
          origin_sha_of_resolve hUg hUi (hI2 r hmem) (hI2 row hrowmem) he
        exact countBySha_ne_zero hr hsha hc
      · intro q hq
        rcases mem_unlinkPath.mp hq with ⟨hqd, hqneq⟩
        obtain ⟨r, hr, he⟩ := hI4 q hqd
        have hrne : r.id ≠ fid := by
          intro hid
          have hrr : r = row := id_inj hI1 r hr row hrowmem (by rw [hid, hrowid])
          rw [hrr] at he
          exact hqneq he.symm
        exact ⟨r, mem_deleteRow.mpr ⟨hr, hrne⟩, he⟩
    · simp only [hc, if_neg (by exact hc)]
      refine ⟨?_, ?_, ?_, ?_, ?_⟩
      · exact fun r hr => hI0 r (mem_deleteRow.mp hr).1
      · exact nodup_ids_deleteRow hI1
      · exact fun r hr => hI2 r (mem_deleteRow.mp hr).1
      · exact fun r hr => hI3 r (mem_deleteRow.mp hr).1
      · intro q hq
        obtain ⟨r, hr, he⟩ := hI4 q hq
        by_cases hrid : r.id = fid
        · have hrr : r = row := id_inj hI1 r hr row hrowmem (by rw [hrid, hrowid])
          obtain ⟨r2, hr2, hsha2⟩ := countBySha_exists hc
          have hr2mem := (mem_deleteRow.mp hr2).1
          have hpath : r2.stored_relpath = row.stored_relpath :=
            origin_path_of_sha hUu (hI2 r2 hr2mem) (hI2 row hrowmem) hsha2
          refine ⟨r2, hr2, ?_⟩
          rw [hrr] at he
          rw [hpath]
          exact he
        · exact ⟨r, mem_deleteRow.mpr ⟨hr, hrid⟩, he⟩

theorem inv_bulk (root : List String) (U : List UploadReq)
    (hUg : ∀ u ∈ U, goodComp (u.sha.take 2) ∧ goodComp (u.sha ++ u.ext))
    (hUu : ∀ u1 ∈ U, ∀ u2 ∈ U, u1.sha = u2.sha → u1.ext = u2.ext)
    (hUi : ∀ u1 ∈ U, ∀ u2 ∈ U,
      locationFor u1.sha u1.ext = locationFor u2.sha u2.ext → u1.sha = u2.sha)
    (raw : List String) (s : VaultState) (h : VaultInv root U s) :
    VaultInv root U (bulk_delete root raw s).1 := by
  obtain ⟨hI0, hI1, hI2, hI3, hI4⟩ := h
  have hrem := phase1_remaining (raw.filterMap pyInt?) s.catalog
  have hcat : (bulk_delete root raw s).1.catalog
      = (phase1 (raw.filterMap pyInt?) s.catalog).1 := rfl
  have hdisk : (bulk_delete root raw s).1.disk
      = (blobPass root (phase1 (raw.filterMap pyInt?) s.catalog).1
          (phase1 (raw.filterMap pyInt?) s.catalog).2 s.disk).1 := rfl
  have hnext : (bulk_delete root raw s).1.nextId = s.nextId := rfl
  have hsub : ∀ r ∈ (phase1 (raw.filterMap pyInt?) s.catalog).1,
      r ∈ s.catalog := by
    rw [hrem]
    exact fun r hr => (List.mem_filter.mp hr).1
  refine ⟨?_, ?_, ?_, ?_, ?_⟩
  · rw [hcat, hnext]
    exact fun r hr => hI0 r (hsub r hr)
  · rw [hcat, hrem]
    exact List.Nodup.sublist (List.Sublist.map _ (List.filter_sublist _)) hI1
  · rw [hcat]
    exact fun r hr => hI2 r (hsub r hr)
  · rw [hcat, hdisk]
    intro r hr
    refine (blobPass_disk_mem root _ _ _ _).mpr ⟨hI3 r (hsub r hr), ?_⟩
    intro row hrow hczero he
    have hrowmem := phase1_rows_mem (raw.filterMap pyInt?) s.catalog row hrow
    have hsha : row.sha256 = r.sha256 :=
      origin_sha_of_resolve hUg hUi (hI2 row hrowmem) (hI2 r (hsub r hr)) he
    exact countBySha_ne_zero hr hsha.symm hczero
  · rw [hdisk, hcat]
    intro q hq
    obtain ⟨hqd, hqall⟩ := (blobPass_disk_mem root _ _ _ _).mp hq
    obtain ⟨r, hr, he⟩ := hI4 q hqd
    by_cases hrin : r ∈ (phase1 (raw.filterMap pyInt?) s.catalog).1
    · exact ⟨r, hrin, he⟩
    · have hidin : r.id ∈ raw.filterMap pyInt? := by
        rw [hrem] at hrin
        by_contra hnot
        exact hrin (List.mem_filter.mpr ⟨hr, by simpa using hnot⟩)
      have hrow : r ∈ (phase1 (raw.filterMap pyInt?) s.catalog).2 :=
        phase1_rows_of_mem (raw.filterMap pyInt?) s.catalog r hI1 hr hidin
      by_cases hcz : countBySha (phase1 (raw.filterMap pyInt?) s.catalog).1
          r.sha256 = 0
      · exact absurd he (hqall r hrow hcz)
      · obtain ⟨r2, hr2, hsha2⟩ := countBySha_exists hcz
        have hr2mem := hsub r2 hr2
        have hpath : r2.stored_relpath = r.stored_relpath :=
          origin_path_of_sha hUu (hI2 r2 hr2mem) (hI2 r hr) hsha2
        refine ⟨r2, hr2, ?_⟩
        rw [hpath]
        exact he

theorem uploadsOf_cons (op : Op) (ops : List Op) :
    uploadsOf (op :: ops)
      = (match op with | .upload u => [u] | _ => []) ++ uploadsOf ops := by
  cases op <;> simp [uploadsOf]

theorem foldl_inv (root : List String) (U : List UploadReq)
    (hUg : ∀ u ∈ U, goodComp (u.sha.take 2) ∧ goodComp (u.sha ++ u.ext))
    (hUu : ∀ u1 ∈ U, ∀ u2 ∈ U, u1.sha = u2.sha → u1.ext = u2.ext)
    (hUi : ∀ u1 ∈ U, ∀ u2 ∈ U,
      locationFor u1.sha u1.ext = locationFor u2.sha u2.ext → u1.sha = u2.sha) :
    ∀ (ops : List Op) (s : VaultState), VaultInv root U s →
      (∀ u ∈ uploadsOf ops, u ∈ U) →
      VaultInv root U (ops.foldl (execOp root) s) := by
  intro ops
  induction ops with
  | nil => intro s h _; exact h
  | cons op ops ih =>
    intro s h hU
    simp only [List.foldl_cons]
    refine ih _ ?_ ?_
    · cases op with
      | upload u =>
        refine inv_upload root U u (hU u ?_) s h
        rw [uploadsOf_cons]
        simp
      | deleteOne fid => exact inv_deleteOne root U hUg hUu hUi fid s h
      | bulk raw => exact inv_bulk root U hUg hUu hUi raw s h
    · intro u hu
      refine hU u ?_
      rw [uploadsOf_cons]
      exact List.mem_append_right _ hu

/-- C4 counterexample: a quiescent reachable state — reached by two uploads
of the same content under extensions `.txt` and `.bin` followed by a
completed single delete — in which a blob file remains on disk at a
`stored_relpath` that no live record references (the reference count is kept
by digest, the blob files by digest+extension). -/
theorem blob_iff_referenced_fails :
    resolveComponents root0 ["d0", "d0.txt"] ∈ (run root0 opsOrphan).disk ∧
    ∀ r ∈ (run root0 opsOrphan).catalog,
      r.stored_relpath ≠ ["d0", "d0.txt"] := by decide

/-- C4 (amended): in every quiescent reachable state of a run in which every
two uploads of the same digest use the same extension (so records sharing a
digest share their `stored_relpath`), with well-formed digest/extension
components and content-addressed location injectivity, a blob file exists on
durable storage iff at least one live record stores it: every live record's
blob is on disk, and every file on disk is some live record's blob — in
particular no single or bulk delete leaves an unreferenced blob behind. -/
theorem blob_iff_referenced_uniform_ext (root : List String) (ops : List Op)
    (hUg : ∀ u ∈ uploadsOf ops,
      goodComp (u.sha.take 2) ∧ goodComp (u.sha ++ u.ext))
    (hUu : ∀ u1 ∈ uploadsOf ops, ∀ u2 ∈ uploadsOf ops,
      u1.sha = u2.sha → u1.ext = u2.ext)
    (hUi : ∀ u1 ∈ uploadsOf ops, ∀ u2 ∈ uploadsOf ops,
      locationFor u1.sha u1.ext = locationFor u2.sha u2.ext → u1.sha = u2.sha) :
    (∀ r ∈ (run root ops).catalog,
      resolveComponents root r.stored_relpath ∈ (run root ops).disk) ∧
    (∀ q ∈ (run root ops).disk, ∃ r ∈ (run root ops).catalog,
      resolveComponents root r.stored_relpath = q) := by
  have h := foldl_inv root (uploadsOf ops) hUg hUu hUi ops initState
    (inv_init root (uploadsOf ops)) (fun u hu => hu)
  exact ⟨h.2.2.2.1, h.2.2.2.2⟩

theorem blob_iff_referenced_uniform_ext_w :
    (∀ r ∈ (run root0 opsUniform).catalog,
      resolveComponents root0 r.stored_relpath ∈ (run root0 opsUniform).disk) ∧
    (∀ q ∈ (run root0 opsUniform).disk, ∃ r ∈ (run root0 opsUniform).catalog,
      resolveComponents root0 r.stored_relpath = q) :=
  blob_iff_referenced_uniform_ext root0 opsUniform (by decide) (by decide)
    (by decide)

end GuestVault
